import Mathlib

/-!
Shallow embedding of the statshunter-optimizer backend.

Coordinates are `(lon, lat)` pairs; rationals stand in for Python floats.
The transcendental helpers (`haversine_distance`, `_calculate_bearing`), the
sklearn k-means call and the mercantile tile-center computation are taken as
function parameters: their float formulas have no exact computable embedding,
and every property proved below holds for an arbitrary instantiation.
All control flow, guards and list surgery are embedded directly from the
Python source.
-/

/-- A `(lon, lat)` coordinate. -/
abbrev Point : Type := ℚ × ℚ

/-- A tile index pair `(x, y)`. -/
abbrev Tile : Type := ℤ × ℤ

namespace MapyWaypointReducer

/-- `MAPY_MAX_WAYPOINTS` class constant. -/
def MAPY_MAX_WAYPOINTS : ℕ := 15

/-- `_select_strategy`: pick a reduction strategy from the target distance
(the waypoint count argument is accepted but unused, as in the source). -/
def select_strategy (distance : ℚ) (waypointCount : ℕ) : String :=
  if distance < 30 then "clustering"
  else if distance < 75 then "sampling"
  else "corridor"

/-- Distances between consecutive waypoints, as computed by the loop
`for i in range(len(waypoints) - 1)` over `_haversine_distance`. -/
def consecutive_dists (hav : Point → Point → ℚ) (wps : List Point) : List ℚ :=
  (wps.zip wps.tail).map fun p => hav p.1 p.2

/-- Total polyline length: the sum of consecutive-pair distances. -/
def path_length (hav : Point → Point → ℚ) (wps : List Point) : ℚ :=
  (consecutive_dists hav wps).sum

/-- Inner loop of `distances.index(min(distances))`-style scans: index of the
first element minimizing `|x - target|`, given the best seen so far. -/
def argmin_abs_aux (target : ℚ) : ℚ → ℕ → ℕ → List ℚ → ℕ
  | _, bestIdx, _, [] => bestIdx
  | bestDiff, bestIdx, cur, x :: rest =>
      if |x - target| < bestDiff then argmin_abs_aux target |x - target| cur (cur + 1) rest
      else argmin_abs_aux target bestDiff bestIdx (cur + 1) rest

/-- Index of the first element of `l` minimizing `|x - target|`
(the `min_diff = inf` scan in `_sample_waypoints`). -/
def argmin_abs (target : ℚ) : List ℚ → ℕ
  | [] => 0
  | x :: rest => argmin_abs_aux target |x - target| 0 1 rest

/-- `_sample_waypoints`: keep first/last, pick up to 13 interior waypoints at
even fractions of the cumulative distance. -/
def sample_waypoints (hav : Point → Point → ℚ) (wps : List Point)
    (targetDistance : ℚ) : List Point :=
  if wps.length ≤ MAPY_MAX_WAYPOINTS then wps
  else
    let startPoint := wps.getD 0 (0, 0)
    let endPoint := wps.getLastD (0, 0)
    let middlePoints := (wps.drop 1).dropLast
    if middlePoints.length ≤ MAPY_MAX_WAYPOINTS - 2 then wps
    else
      let dists := consecutive_dists hav wps
      let cumulative := List.scanl (· + ·) 0 dists
      let totalDistance := cumulative.getLastD 0
      let nMiddle := MAPY_MAX_WAYPOINTS - 2
      let selectedIndices :=
        (List.range' 1 nMiddle).foldl
          (fun (sel : List ℕ) (i : ℕ) =>
            let targetPoint := ((i : ℚ) / ((nMiddle : ℚ) + 1)) * totalDistance
            let closestIdx := argmin_abs targetPoint cumulative
            if closestIdx ∉ sel ∧ 0 < closestIdx ∧ closestIdx < wps.length - 1
            then sel ++ [closestIdx] else sel)
          ([] : List ℕ)
      let sortedIndices := selectedIndices.insertionSort (· ≤ ·)
      startPoint :: (sortedIndices.map fun i => wps.getD i (0, 0)) ++ [endPoint]

/-- `_cluster_waypoints`: keep first/last, replace the interior by k-means
cluster centers.  `kmeansCenters mids k = none` models the `except` branch
(sklearn raising), which falls back to sampling with distance 50. -/
def cluster_waypoints (hav : Point → Point → ℚ)
    (kmeansCenters : List Point → ℕ → Option (List Point))
    (wps : List Point) : List Point :=
  if wps.length ≤ MAPY_MAX_WAYPOINTS then wps
  else
    let startPoint := wps.getD 0 (0, 0)
    let endPoint := wps.getLastD (0, 0)
    let middlePoints := (wps.drop 1).dropLast
    if middlePoints.length ≤ MAPY_MAX_WAYPOINTS - 2 then wps
    else
      let nClusters := min (MAPY_MAX_WAYPOINTS - 2) middlePoints.length
      match kmeansCenters middlePoints nClusters with
      | some centers => startPoint :: centers ++ [endPoint]
      | none => sample_waypoints hav wps 50

/-- Bearing change at the middle of three consecutive points, wrapped to
`≤ 180` as in `_corridor_waypoints`. -/
def bearing_change (bear : Point → Point → ℚ) (p q r : Point) : ℚ :=
  let c := |bear q r - bear p q|
  if 180 < c then 360 - c else c

/-- The `important_indices` list of `_corridor_waypoints` before any
subsampling: index 0, interior indices whose bearing change exceeds 30°,
and the final index. -/
def corridor_important (bear : Point → Point → ℚ) (wps : List Point) : List ℕ :=
  0 :: (((List.range' 1 (wps.length - 2)).filter fun i =>
      30 < bearing_change bear (wps.getD (i - 1) (0, 0)) (wps.getD i (0, 0))
        (wps.getD (i + 1) (0, 0)))
    ++ [wps.length - 1])

/-- Python slice `l[::k]` for `k ≥ 1`: every `k`-th element starting at 0. -/
def everyNth (k : ℕ) : List α → List α
  | [] => []
  | a :: rest => a :: everyNth k (rest.drop (k - 1))
  termination_by l => l.length
  decreasing_by simp only [List.length_drop, List.length_cons]; omega

/-- The gap-scanning `for` loop of `_corridor_waypoints`: carry the largest
gap and its midpoint over adjacent index pairs. -/
def find_gap_aux : ℕ → ℕ → List ℕ → ℕ × ℕ
  | g, m, a :: b :: rest =>
      if g < b - a then find_gap_aux (b - a) ((a + b) / 2) (b :: rest)
      else find_gap_aux g m (b :: rest)
  | g, m, _ => (g, m)

/-- Largest index gap and its midpoint, starting from `largest_gap = 0`,
`gap_middle = 0`. -/
def find_gap (l : List ℕ) : ℕ × ℕ := find_gap_aux 0 0 l

/-- One body execution of the gap-filling `while` loop: append the midpoint
of the largest gap when it is a fresh index in a gap wider than 1, then sort. -/
def fill_gaps_step (l : List ℕ) : List ℕ :=
  let gm := find_gap l
  if 1 < gm.1 ∧ gm.2 ∉ l then (l ++ [gm.2]).insertionSort (· ≤ ·) else l

/-- The gap-filling `while` loop of `_corridor_waypoints`, with explicit fuel;
the loop guard is `len < 15 and len < avail`.  Fuel `avail` is shown below to
reach a state where the guard fails. -/
def fill_gaps (avail : ℕ) : ℕ → List ℕ → List ℕ
  | 0, l => l
  | fuel + 1, l =>
      if l.length < MAPY_MAX_WAYPOINTS ∧ l.length < avail then
        fill_gaps avail fuel (fill_gaps_step l)
      else l

/-- The `important_indices` list right before the gap-filling `while` loop:
when more than 15 bearing-based indices qualify, keep start/end and evenly
subsample the middle down to 13. -/
def corridor_subsampled (bear : Point → Point → ℚ) (wps : List Point) : List ℕ :=
  let important := corridor_important bear wps
  if MAPY_MAX_WAYPOINTS < important.length then
    let middleImportant := (important.drop 1).dropLast
    let nMiddle := MAPY_MAX_WAYPOINTS - 2
    let step := middleImportant.length / nMiddle
    let sampledMiddle := (everyNth (max 1 step) middleImportant).take nMiddle
    0 :: (sampledMiddle ++ [wps.length - 1])
  else important

/-- `_corridor_waypoints`: bearing-based important indices, subsampled down
when too many, gap-filled up when too few, then mapped back to waypoints. -/
def corridor_waypoints (bear : Point → Point → ℚ) (wps : List Point) : List Point :=
  if wps.length ≤ MAPY_MAX_WAYPOINTS then wps
  else if wps.length ≤ 3 then wps
  else
    let filled := fill_gaps wps.length wps.length (corridor_subsampled bear wps)
    filled.map fun i => wps.getD i (0, 0)

/-- `reduce_waypoints`: identity at or below the cap, otherwise dispatch on
the (possibly auto-selected) strategy string. -/
def reduce_waypoints (hav bear : Point → Point → ℚ)
    (kmeansCenters : List Point → ℕ → Option (List Point))
    (wps : List Point) (targetDistance : ℚ) (strategy : String) : List Point :=
  if wps.length ≤ MAPY_MAX_WAYPOINTS then wps
  else
    let s := if strategy = "auto" then select_strategy targetDistance wps.length
             else strategy
    if s = "clustering" then cluster_waypoints hav kmeansCenters wps
    else if s = "sampling" then sample_waypoints hav wps targetDistance
    else if s = "corridor" then corridor_waypoints bear wps
    else sample_waypoints hav wps targetDistance

/-- Return dictionary of `estimate_route_quality`. -/
structure QualityMetrics where
  waypoint_reduction : ℚ
  distance_ratio : ℚ
  density_ratio : ℚ
  original_waypoints : ℕ
  reduced_waypoints : ℕ
  original_distance : ℚ
  reduced_distance : ℚ
deriving Repr, DecidableEq

/-- `estimate_route_quality`.  The entry
`waypoint_reduction = len(reduced)/len(original)` is the one unguarded
division in the source: on an empty original list Python raises
`ZeroDivisionError`, modelled here as `none`.  Every other division is
guarded by the source's `if ... > 0 else` expressions, so no other input
raises. -/
def estimate_route_quality (hav : Point → Point → ℚ)
    (original reduced : List Point) : Option QualityMetrics :=
  if original.length = 0 then none
  else
    let originalDistance := path_length hav original
    let reducedDistance := path_length hav reduced
    let originalDensity :=
      if 0 < originalDistance then (original.length : ℚ) / originalDistance else 0
    let reducedDensity :=
      if 0 < reducedDistance then (reduced.length : ℚ) / reducedDistance else 0
    some
      { waypoint_reduction := (reduced.length : ℚ) / (original.length : ℚ)
        distance_ratio :=
          if 0 < originalDistance then reducedDistance / originalDistance else 1
        density_ratio :=
          if 0 < originalDensity then reducedDensity / originalDensity else 1
        original_waypoints := original.length
        reduced_waypoints := reduced.length
        original_distance := originalDistance
        reduced_distance := reducedDistance }

end MapyWaypointReducer

namespace MapyRouteService

/-- `_create_fallback_waypoints`: minimal retry set when the backend rejects
a waypoint list. -/
def create_fallback_waypoints (waypoints : List Point) : List Point :=
  if waypoints.length ≤ 3 then waypoints
  else
    let start := waypoints.getD 0 (0, 0)
    let e := waypoints.getLastD (0, 0)
    if waypoints.length ≤ 6 then
      [start, waypoints.getD (waypoints.length / 2) (0, 0), e]
    else
      [start, waypoints.getD (waypoints.length / 3) (0, 0),
        waypoints.getD (2 * waypoints.length / 3) (0, 0), e]

end MapyRouteService

namespace TileOptimizer

/-- A scored candidate `(score, coord, dist, idx)` as built in
`_greedy_tile_selection`. -/
abbrev Score : Type := ℚ × Point × ℚ × ℕ

/-- Flatten a score tuple for lexicographic comparison, mirroring Python's
tuple ordering on `(score, (lon, lat), dist, idx)`. -/
def score_key (s : Score) : List ℚ := [s.1, s.2.1.1, s.2.1.2, s.2.2.1, (s.2.2.2 : ℚ)]

/-- Lexicographic strict order on rational lists (Python tuple `<`). -/
def qlist_lt : List ℚ → List ℚ → Bool
  | [], [] => false
  | [], _ :: _ => true
  | _ :: _, [] => false
  | x :: xs, y :: ys => x < y ∨ (x = y ∧ qlist_lt xs ys)

/-- `scores.sort(reverse=True); scores[0]`: the lexicographically greatest
score tuple (the fold keeps the earliest among equals, as a stable
descending sort does). -/
def pick_best : List Score → Option Score
  | [] => none
  | s :: rest =>
      some (rest.foldl (fun best x =>
        if qlist_lt (score_key best) (score_key x) then x else best) s)

/-- The score-building inner loop of `_greedy_tile_selection`: skip used
indices, keep candidates whose visit-plus-return distance fits the remaining
budget, and score them `weight / (dist + 0.1)`. -/
def mk_scores (hav : Point → Point → ℚ) (start pos : Point) (rem : ℚ)
    (used : List ℕ) (cands : List (Point × ℚ × ℕ)) : List Score :=
  cands.filterMap fun c =>
    if c.2.2 ∉ used then
      let dist := hav pos c.1
      let returnDist := hav c.1 start
      if dist + returnDist ≤ rem then
        some (c.2.1 / (dist + 1 / 10), c.1, dist, c.2.2)
      else none
    else none

/-- The `while` loop of `_greedy_tile_selection`; the first argument counts
the picks still allowed (`max_tiles - len(selected)`), which the source's
guard `len(selected) < max_tiles` keeps positive. -/
def greedy_go (hav : Point → Point → ℚ) (start : Point) :
    ℕ → List (Point × ℚ × ℕ) → List ℕ → Point → ℚ → List Point
  | 0, _, _, _, _ => []
  | left + 1, cands, used, pos, rem =>
      if cands.isEmpty then []
      else
        match pick_best (mk_scores hav start pos rem used cands) with
        | none => []
        | some (_, coord, dist, idx) =>
            coord :: greedy_go hav start left
              (cands.filter fun c => c.2.2 ≠ idx) (idx :: used) coord (rem - dist)

/-- `_greedy_tile_selection`: zip candidates with weights and indices, then
run the greedy loop from the start point with the full budget. -/
def greedy_tile_selection (hav : Point → Point → ℚ) (start : Point)
    (candidates : List Point) (weights : List ℚ)
    (maxDistance : ℚ) (maxTiles : ℕ) : List Point :=
  let weighted := (candidates.zip weights).enum.map fun p => (p.2.1, p.2.2, p.1)
  greedy_go hav start maxTiles weighted [] start maxDistance

/-- Scan for the index of the first minimal element, carrying the best value,
its index and the current index (`distances.index(min(distances))`). -/
def idx_of_min_aux : ℚ → ℕ → ℕ → List ℚ → ℕ
  | _, bestIdx, _, [] => bestIdx
  | best, bestIdx, cur, x :: rest =>
      if x < best then idx_of_min_aux x cur (cur + 1) rest
      else idx_of_min_aux best bestIdx (cur + 1) rest

/-- Index of the first minimal element of a list (0 on the empty list). -/
def idx_of_min : List ℚ → ℕ
  | [] => 0
  | x :: rest => idx_of_min_aux x 0 1 rest

theorem idx_of_min_aux_lt (target : List ℚ) :
    ∀ (best : ℚ) (bestIdx cur : ℕ), bestIdx < cur →
      idx_of_min_aux best bestIdx cur target < cur + target.length := by
  induction target with
  | nil => intro best bestIdx cur h; simpa [idx_of_min_aux] using h
  | cons x rest ih =>
      intro best bestIdx cur h
      simp only [idx_of_min_aux, List.length_cons]
      split
      · have := ih x cur (cur + 1) (Nat.lt_succ_self cur)
        omega
      · have := ih best bestIdx (cur + 1) (Nat.lt_succ_of_lt h)
        omega

theorem idx_of_min_lt_length {l : List ℚ} (h : l ≠ []) :
    idx_of_min l < l.length := by
  cases l with
  | nil => exact absurd rfl h
  | cons x rest =>
      have := idx_of_min_aux_lt rest x 0 1 Nat.one_pos
      simp only [idx_of_min, List.length_cons]
      omega

theorem eraseIdx_min_length_lt (hav : Point → Point → ℚ) (cur p₀ : Point)
    (rest : List Point) :
    ((p₀ :: rest).eraseIdx (idx_of_min ((p₀ :: rest).map (hav cur)))).length
      < (p₀ :: rest).length := by
  have hi : idx_of_min ((p₀ :: rest).map (hav cur)) < (p₀ :: rest).length := by
    have := idx_of_min_lt_length (l := (p₀ :: rest).map (hav cur)) (by simp)
    simpa using this
  rw [List.length_eraseIdx_of_lt hi]
  simp

/-- The nearest-neighbor `while unvisited` loop of `_optimize_path`: pop the
closest remaining waypoint and advance to it. -/
def nn_loop (hav : Point → Point → ℚ) : Point → List Point → List Point
  | _, [] => []
  | cur, p₀ :: rest =>
      let l := p₀ :: rest
      let ds := l.map (hav cur)
      let i := idx_of_min ds
      let p := l.getD i (0, 0)
      p :: nn_loop hav p (l.eraseIdx i)
  termination_by _ l => l.length
  decreasing_by exact eraseIdx_min_length_lt hav cur p₀ rest

/-- `_optimize_path`: wrap the nearest-neighbor order in the start point on
both ends (trivial lists are wrapped directly). -/
def optimize_path (hav : Point → Point → ℚ) (start : Point)
    (waypoints : List Point) : List Point :=
  if waypoints.length ≤ 1 then start :: waypoints ++ [start]
  else start :: nn_loop hav start waypoints ++ [start]

/-- `optimize_tile_coverage`: build weighted candidates from the chosen tile
set, filter by half-budget radius, greedily select, and sequence the result.
`tileCenter` stands for `tile_to_center_with_offset` (mercantile plus random
offset); `visitedTiles`/`allTiles` are the constructor's sets, in iteration
order.  The `tiles_to_consider` choice is factored out into the wrapper
below so that properties can be stated over the chosen list. -/
def optimize_tile_coverage_core (hav : Point → Point → ℚ) (tileCenter : Tile → Point)
    (unvisitedTiles tilesToConsider : List Tile) (startPoint : Point)
    (targetDistance : ℚ) (maxTiles : ℕ) : List Point :=
  let tileCoords := tilesToConsider.map tileCenter
  let tileWeights := tilesToConsider.map fun t =>
    if t ∈ unvisitedTiles then (2 : ℚ) else 1
  if tileCoords.isEmpty then [startPoint]
  else
    let distancesFromStart := tileCoords.map (hav startPoint)
    let maxRadius := targetDistance / 2
    let nearbyIndices := (List.range tileCoords.length).filter fun i =>
      distancesFromStart.getD i 0 ≤ maxRadius
    if nearbyIndices.isEmpty then [startPoint]
    else
      let selectedCoords := greedy_tile_selection hav startPoint
        (nearbyIndices.map fun i => tileCoords.getD i (0, 0))
        (nearbyIndices.map fun i => tileWeights.getD i 0)
        targetDistance maxTiles
      optimize_path hav startPoint selectedCoords

/-- `optimize_tile_coverage` proper: the `tiles_to_consider` selection between
the unvisited set and the full set, followed by the body above. -/
def optimize_tile_coverage (hav : Point → Point → ℚ) (tileCenter : Tile → Point)
    (visitedTiles allTiles : List Tile) (startPoint : Point)
    (targetDistance : ℚ) (maxTiles : ℕ) (preferUnvisited : Bool) : List Point :=
  let unvisitedTiles := allTiles.filter fun t => t ∉ visitedTiles
  let tilesToConsider := if preferUnvisited then unvisitedTiles else allTiles
  optimize_tile_coverage_core hav tileCenter unvisitedTiles tilesToConsider
    startPoint targetDistance maxTiles

end TileOptimizer

/-- Taxicab metric on rational coordinates: a concrete stand-in distance for
evaluating the embedding at explicit inputs (zero on equal points, positive
on distinct ones, like the haversine it replaces). -/
def taxiDist (p q : Point) : ℚ := |p.1 - q.1| + |p.2 - q.2|

/-- A concrete 16-point straight-line waypoint list. -/
def wps16 : List Point := (List.range 16).map fun i => ((i : ℚ), 0)

/-- A concrete 7-point straight-line waypoint list. -/
def wps7 : List Point := (List.range 7).map fun i => ((i : ℚ), 0)


/-! ### Generic list helpers -/

theorem head?_eq_some_getD {α} (l : List α) (d : α) (h : l ≠ []) :
    l.head? = some (l.getD 0 d) := by
  cases l with
  | nil => exact absurd rfl h
  | cons x t => rfl

theorem getLast?_eq_some_getLastD {α} (l : List α) (d : α) (h : l ≠ []) :
    l.getLast? = some (l.getLastD d) := by
  rw [List.getLastD_eq_getLast?]
  cases hx : l.getLast? with
  | none => exact absurd (List.getLast?_eq_none_iff.mp hx) h
  | some a => rfl

theorem getLast?_cons_append_singleton {α} (a b : α) (l : List α) :
    (a :: l ++ [b]).getLast? = some b := by
  rw [show a :: l ++ [b] = (a :: l) ++ [b] by simp]
  exact List.getLast?_concat _

open MapyWaypointReducer MapyRouteService TileOptimizer in
/-- C10: for every input list of at most 15 waypoints, `reduce_waypoints` is
the identity, for every target distance and every strategy argument. -/
theorem C10_reduce_identity_below_cap (hav bear : Point → Point → ℚ)
    (kc : List Point → ℕ → Option (List Point)) (wps : List Point)
    (d : ℚ) (s : String) (h : wps.length ≤ 15) :
    reduce_waypoints hav bear kc wps d s = wps := by
  simp [reduce_waypoints, MAPY_MAX_WAYPOINTS, h]

open MapyWaypointReducer in
/-- Witness for C10 at a concrete 3-point list. -/
theorem C10_witness :
    reduce_waypoints taxiDist taxiDist (fun _ _ => none)
      [((0 : ℚ), (0 : ℚ)), (1, 0), (2, 0)] 42 "corridor"
      = [((0 : ℚ), (0 : ℚ)), (1, 0), (2, 0)] :=
  C10_reduce_identity_below_cap _ _ _ _ _ _ (by decide)

/-! ### C6: automatic strategy selection and explicit override -/

open MapyWaypointReducer in
/-- C6: automatic strategy selection returns clustering below 30, sampling on
`[30, 75)` and corridor from 75 on, and an explicitly supplied strategy name
dispatches to that strategy regardless of the distance. -/
theorem C6_strategy_selection (d : ℚ) (n : ℕ) (hav bear : Point → Point → ℚ)
    (kc : List Point → ℕ → Option (List Point)) (wps : List Point)
    (hlen : 15 < wps.length) :
    (d < 30 → select_strategy d n = "clustering") ∧
    (30 ≤ d → d < 75 → select_strategy d n = "sampling") ∧
    (75 ≤ d → select_strategy d n = "corridor") ∧
    reduce_waypoints hav bear kc wps d "clustering" = cluster_waypoints hav kc wps ∧
    reduce_waypoints hav bear kc wps d "sampling" = sample_waypoints hav wps d ∧
    reduce_waypoints hav bear kc wps d "corridor" = corridor_waypoints bear wps := by
  refine ⟨fun h1 => by simp [select_strategy, h1], fun h1 h2 => ?_, fun h1 => ?_, ?_, ?_, ?_⟩
  · simp [select_strategy, h2, not_lt.mpr h1]
  · have h2 : (30 : ℚ) ≤ d := le_trans (by norm_num) h1
    simp [select_strategy, not_lt.mpr h1, not_lt.mpr h2]
  · simp [reduce_waypoints, MAPY_MAX_WAYPOINTS, not_le.mpr hlen]
  · simp [reduce_waypoints, MAPY_MAX_WAYPOINTS, not_le.mpr hlen]
  · simp [reduce_waypoints, MAPY_MAX_WAYPOINTS, not_le.mpr hlen]

open MapyWaypointReducer in
/-- Witness for C6 at distances 10, 50 and 100 and a 16-point list. -/
theorem C6_witness :
    select_strategy 10 16 = "clustering" ∧
    select_strategy 50 16 = "sampling" ∧
    select_strategy 100 16 = "corridor" ∧
    reduce_waypoints taxiDist taxiDist (fun _ _ => none) wps16 10 "corridor"
      = corridor_waypoints taxiDist wps16 :=
  ⟨(C6_strategy_selection 10 16 taxiDist taxiDist (fun _ _ => none) wps16
      (by decide)).1 (by norm_num),
   ((C6_strategy_selection 50 16 taxiDist taxiDist (fun _ _ => none) wps16
      (by decide)).2.1 (by norm_num) (by norm_num)),
   ((C6_strategy_selection 100 16 taxiDist taxiDist (fun _ _ => none) wps16
      (by decide)).2.2.1 (by norm_num)),
   ((C6_strategy_selection 10 16 taxiDist taxiDist (fun _ _ => none) wps16
      (by decide)).2.2.2.2.2)⟩

/-! ### C9: minimal fallback waypoint builder -/

open MapyRouteService in
/-- Counterexample to C9 as stated: a 2-point list (at most 6 points) is
returned unchanged, so the result has no interior point and length 2, not the
claimed "first and last plus exactly one interior point". -/
theorem C9_counterexample :
    create_fallback_waypoints [((0 : ℚ), (0 : ℚ)), (1, 1)]
        = [((0 : ℚ), (0 : ℚ)), (1, 1)] ∧
    (create_fallback_waypoints [((0 : ℚ), (0 : ℚ)), (1, 1)]).length ≠ 3 := by
  constructor
  · rfl
  · decide

open MapyRouteService in
/-- C9 amended: lists of fewer than 3 points come back unchanged (no interior
point exists in the result); lists of 3 to 6 points yield first/last plus
exactly one interior point; longer lists yield first/last plus the two
interior points at the one-third and two-thirds index marks. -/
theorem C9_fallback_amended (wps : List Point) :
    (wps.length < 3 → create_fallback_waypoints wps = wps) ∧
    (3 ≤ wps.length → wps.length ≤ 6 →
      (create_fallback_waypoints wps).length = 3 ∧
      (create_fallback_waypoints wps).head? = wps.head? ∧
      (create_fallback_waypoints wps).getLast? = wps.getLast? ∧
      ∃ i, 0 < i ∧ i + 1 < wps.length ∧
        (create_fallback_waypoints wps).getD 1 (0, 0) = wps.getD i (0, 0)) ∧
    (6 < wps.length →
      create_fallback_waypoints wps =
        [wps.getD 0 (0, 0), wps.getD (wps.length / 3) (0, 0),
          wps.getD (2 * wps.length / 3) (0, 0), wps.getLastD (0, 0)] ∧
      0 < wps.length / 3 ∧ wps.length / 3 < 2 * wps.length / 3 ∧
      2 * wps.length / 3 + 1 < wps.length) := by
  refine ⟨?_, ?_, ?_⟩
  · intro hlt
    have hle3 : wps.length ≤ 3 := by omega
    simp [create_fallback_waypoints, hle3]
  · intro h3 h6
    have hne : wps ≠ [] := by
      intro he; rw [he] at h3; simp at h3
    by_cases hle3 : wps.length ≤ 3
    · have hlen3 : wps.length = 3 := le_antisymm hle3 h3
      have heq : create_fallback_waypoints wps = wps := by
        simp [create_fallback_waypoints, hle3]
      refine ⟨by rw [heq, hlen3], by rw [heq], by rw [heq], 1, Nat.one_pos,
        by omega, by rw [heq]⟩
    · have heq : create_fallback_waypoints wps
          = [wps.getD 0 (0, 0), wps.getD (wps.length / 2) (0, 0),
              wps.getLastD (0, 0)] := by
        simp [create_fallback_waypoints, hle3, h6]
      refine ⟨by rw [heq]; rfl, ?_, ?_, wps.length / 2, by omega, by omega,
        by rw [heq]; simp [List.getD]⟩
      · rw [heq, head?_eq_some_getD wps (0, 0) hne]; rfl
      · rw [heq, getLast?_eq_some_getLastD wps (0, 0) hne]; rfl
  · intro h6
    have hle3 : ¬ wps.length ≤ 3 := by omega
    have hle6 : ¬ wps.length ≤ 6 := by omega
    refine ⟨by simp [create_fallback_waypoints, hle3, hle6], by omega,
      by omega, by omega⟩

open MapyRouteService in
/-- Witness for C9 amended at a 2-point, a 4-point and a 7-point list. -/
theorem C9_witness :
    create_fallback_waypoints [((0 : ℚ), (0 : ℚ)), (1, 0)]
        = [((0 : ℚ), (0 : ℚ)), (1, 0)] ∧
    ((create_fallback_waypoints [((0 : ℚ), (0 : ℚ)), (1, 0), (2, 0), (3, 0)]).length
        = 3 ∧
      (create_fallback_waypoints [((0 : ℚ), (0 : ℚ)), (1, 0), (2, 0), (3, 0)]).head?
        = [((0 : ℚ), (0 : ℚ)), (1, 0), (2, 0), (3, 0)].head? ∧
      (create_fallback_waypoints [((0 : ℚ), (0 : ℚ)), (1, 0), (2, 0), (3, 0)]).getLast?
        = [((0 : ℚ), (0 : ℚ)), (1, 0), (2, 0), (3, 0)].getLast? ∧
      ∃ i, 0 < i ∧ i + 1 < [((0 : ℚ), (0 : ℚ)), (1, 0), (2, 0), (3, 0)].length ∧
        (create_fallback_waypoints
            [((0 : ℚ), (0 : ℚ)), (1, 0), (2, 0), (3, 0)]).getD 1 (0, 0)
          = [((0 : ℚ), (0 : ℚ)), (1, 0), (2, 0), (3, 0)].getD i (0, 0)) ∧
    (create_fallback_waypoints wps7 =
        [wps7.getD 0 (0, 0), wps7.getD (wps7.length / 3) (0, 0),
          wps7.getD (2 * wps7.length / 3) (0, 0), wps7.getLastD (0, 0)] ∧
      0 < wps7.length / 3 ∧ wps7.length / 3 < 2 * wps7.length / 3 ∧
      2 * wps7.length / 3 + 1 < wps7.length) :=
  ⟨(C9_fallback_amended [((0 : ℚ), (0 : ℚ)), (1, 0)]).1 (by decide),
   (C9_fallback_amended _).2.1 (by decide) (by decide),
   (C9_fallback_amended wps7).2.2 (by decide)⟩

/-! ### C5: degenerate denominators in the quality estimator -/

open MapyWaypointReducer in
theorem two_le_length_of_path_length_ne_zero {hav : Point → Point → ℚ}
    {l : List Point} (h : path_length hav l ≠ 0) : 2 ≤ l.length := by
  match l with
  | [] => simp [path_length, consecutive_dists] at h
  | [x] => simp [path_length, consecutive_dists] at h
  | x :: y :: rest => simp

open MapyWaypointReducer in
/-- Counterexample to C5 as stated: on an empty original list the estimator
raises instead of yielding ratio 1.0 (the unguarded `waypoint_reduction`
division), and with a reduced path of zero length but an original path of
positive length, the density ratio is 0, not 1. -/
theorem C5_counterexample :
    estimate_route_quality taxiDist [] [((0 : ℚ), (0 : ℚ))] = none ∧
    path_length taxiDist [((0 : ℚ), (0 : ℚ)), (0, 0)] = 0 ∧
    0 < path_length taxiDist [((0 : ℚ), (0 : ℚ)), (1, 0)] ∧
    Option.map QualityMetrics.density_ratio
      (estimate_route_quality taxiDist [((0 : ℚ), (0 : ℚ)), (1, 0)]
        [((0 : ℚ), (0 : ℚ)), (0, 0)]) = some 0 ∧
    Option.map QualityMetrics.density_ratio
      (estimate_route_quality taxiDist [((0 : ℚ), (0 : ℚ)), (1, 0)]
        [((0 : ℚ), (0 : ℚ)), (0, 0)]) ≠ some 1 := by
  refine ⟨?_, ?_, ?_, ?_, ?_⟩ <;>
    norm_num [estimate_route_quality, path_length, consecutive_dists, taxiDist]

open MapyWaypointReducer in
/-- C5 amended: on an empty original list the estimator raises (a division by
zero in the unguarded `waypoint_reduction` entry), modelled as `none`; on a
nonempty original of zero path length both `distance_ratio` and
`density_ratio` are 1; when the original path length is positive and the
reduced path length is zero, `density_ratio` is 0 (the zero reduced density
is the numerator, so no 1.0 substitution fires), with no error raised. -/
theorem C5_quality_ratio_amended (hav : Point → Point → ℚ)
    (original reduced : List Point) :
    (original = [] → estimate_route_quality hav original reduced = none) ∧
    (original ≠ [] → path_length hav original = 0 →
      ∃ q, estimate_route_quality hav original reduced = some q ∧
        q.distance_ratio = 1 ∧ q.density_ratio = 1) ∧
    (0 < path_length hav original → path_length hav reduced = 0 →
      ∃ q, estimate_route_quality hav original reduced = some q ∧
        q.density_ratio = 0) := by
  refine ⟨?_, ?_, ?_⟩
  · intro he
    subst he
    rfl
  · intro hne h0
    have hlen0 : ¬ original.length = 0 := by
      simpa using hne
    rw [estimate_route_quality, if_neg hlen0]
    refine ⟨_, rfl, ?_, ?_⟩
    · simp [h0]
    · simp [h0]
  · intro hpos hred
    have hlen : 2 ≤ original.length := by
      exact two_le_length_of_path_length_ne_zero (by positivity)
    have hlen0 : ¬ original.length = 0 := by omega
    have hdpos : (0 : ℚ) < (original.length : ℚ) / path_length hav original := by
      apply div_pos _ hpos
      exact_mod_cast Nat.lt_of_lt_of_le Nat.zero_lt_two hlen
    rw [estimate_route_quality, if_neg hlen0]
    refine ⟨_, rfl, ?_⟩
    simp only [hred, lt_irrefl, if_false]
    rw [if_pos hpos, if_pos hdpos, zero_div]

open MapyWaypointReducer in
/-- Witness for C5 amended: the raising empty-original case, a degenerate
nonempty original, and a degenerate reduced path, all at concrete inputs. -/
theorem C5_witness :
    estimate_route_quality taxiDist [] [((0 : ℚ), (0 : ℚ))] = none ∧
    (∃ q, estimate_route_quality taxiDist [((0 : ℚ), (0 : ℚ)), (0, 0)]
        [((5 : ℚ), (0 : ℚ)), (9, 0)] = some q ∧
      q.distance_ratio = 1 ∧ q.density_ratio = 1) ∧
    (∃ q, estimate_route_quality taxiDist [((0 : ℚ), (0 : ℚ)), (1, 0)]
        [((0 : ℚ), (0 : ℚ)), (0, 0)] = some q ∧
      q.density_ratio = 0) :=
  ⟨(C5_quality_ratio_amended taxiDist [] [((0 : ℚ), (0 : ℚ))]).1 rfl,
   (C5_quality_ratio_amended taxiDist _ _).2.1 (by simp)
     (by norm_num [path_length, consecutive_dists, taxiDist]),
   (C5_quality_ratio_amended taxiDist _ _).2.2
     (by norm_num [path_length, consecutive_dists, taxiDist])
     (by norm_num [path_length, consecutive_dists, taxiDist])⟩

/-! ### C4: nearest-neighbor path sequencing -/

theorem perm_getElem_cons_eraseIdx {α} (l : List α) (i : ℕ) (h : i < l.length) :
    l.Perm (l[i] :: l.eraseIdx i) := by
  induction l generalizing i with
  | nil => simp at h
  | cons a t ih =>
      cases i with
      | zero => simp
      | succ i =>
          have h' : i < t.length := by simpa using h
          have step1 : (a :: t).Perm (a :: (t[i] :: t.eraseIdx i)) := (ih i h').cons a
          have step2 : (a :: (t[i] :: t.eraseIdx i)).Perm (t[i] :: a :: t.eraseIdx i) :=
            List.Perm.swap _ _ _
          exact step1.trans step2

open TileOptimizer in
theorem nn_loop_perm (hav : Point → Point → ℚ) :
    ∀ (n : ℕ) (l : List Point) (cur : Point), l.length ≤ n → (nn_loop hav cur l).Perm l := by
  intro n
  induction n with
  | zero =>
      intro l cur h
      have hl : l = [] := List.eq_nil_of_length_eq_zero (Nat.le_zero.mp h)
      subst hl; simp [nn_loop]
  | succ n ih =>
      intro l cur h
      match l with
      | [] => simp [nn_loop]
      | p₀ :: rest =>
          simp only [nn_loop]
          have hilt : idx_of_min ((p₀ :: rest).map (hav cur)) < (p₀ :: rest).length := by
            have := idx_of_min_lt_length (l := (p₀ :: rest).map (hav cur)) (by simp)
            simpa using this
          have hgetD : (p₀ :: rest).getD (idx_of_min ((p₀ :: rest).map (hav cur))) (0, 0)
              = (p₀ :: rest)[idx_of_min ((p₀ :: rest).map (hav cur))] := by
            rw [List.getD_eq_getElem?_getD, List.getElem?_eq_getElem hilt]; rfl
          have hperm := perm_getElem_cons_eraseIdx (p₀ :: rest) _ hilt
          have hlen : ((p₀ :: rest).eraseIdx
              (idx_of_min ((p₀ :: rest).map (hav cur)))).length ≤ n := by
            rw [List.length_eraseIdx_of_lt hilt]
            simp only [List.length_cons] at h ⊢
            omega
          rw [hgetD]
          exact ((ih _ _ hlen).cons _).trans hperm.symm

open TileOptimizer in
theorem nn_loop_length (hav : Point → Point → ℚ) (l : List Point) (cur : Point) :
    (nn_loop hav cur l).length = l.length :=
  (nn_loop_perm hav l.length l cur le_rfl).length_eq

open TileOptimizer in
theorem optimize_path_shape (hav : Point → Point → ℚ) (start : Point)
    (wps : List Point) :
    ∃ mid : List Point, optimize_path hav start wps = start :: mid ++ [start] ∧ mid.Perm wps := by
  rw [optimize_path]
  by_cases h : wps.length ≤ 1
  · exact ⟨wps, by simp [h], List.Perm.refl wps⟩
  · exact ⟨nn_loop hav start wps, by simp [h],
      nn_loop_perm hav wps.length wps start le_rfl⟩

open TileOptimizer in
theorem optimize_path_length (hav : Point → Point → ℚ) (start : Point)
    (wps : List Point) :
    (optimize_path hav start wps).length = wps.length + 2 := by
  obtain ⟨mid, heq, hperm⟩ := optimize_path_shape hav start wps
  rw [heq]
  simp [hperm.length_eq]

open TileOptimizer in
/-- C4: the path-sequencing operation returns a list of length input + 2,
starting and ending at the start coordinate, whose middle portion is a
permutation of the input waypoints. -/
theorem C4_optimize_path_spec (hav : Point → Point → ℚ) (start : Point)
    (wps : List Point) :
    (optimize_path hav start wps).length = wps.length + 2 ∧
    (optimize_path hav start wps).head? = some start ∧
    (optimize_path hav start wps).getLast? = some start ∧
    ((optimize_path hav start wps).drop 1).dropLast.Perm wps := by
  obtain ⟨mid, heq, hperm⟩ := optimize_path_shape hav start wps
  refine ⟨optimize_path_length hav start wps, ?_, ?_, ?_⟩
  · rw [heq]; rfl
  · rw [heq]; exact getLast?_cons_append_singleton _ _ _
  · rw [heq]
    simpa [List.dropLast_concat] using hperm

/-! ### C2 and C7: coverage selection bounds and error handling -/

open TileOptimizer in
theorem greedy_go_length_le (hav : Point → Point → ℚ) (start : Point) :
    ∀ (left : ℕ) (cands : List (Point × ℚ × ℕ)) (used : List ℕ) (pos : Point) (rem : ℚ),
      (greedy_go hav start left cands used pos rem).length ≤ left := by
  intro left
  induction left with
  | zero => intro cands used pos rem; simp [greedy_go]
  | succ n ih =>
      intro cands used pos rem
      rw [greedy_go]
      split
      · simp
      · split
        · simp
        · simpa using Nat.succ_le_succ (ih _ _ _ _)


open TileOptimizer in
theorem greedy_tile_selection_length_le (hav : Point → Point → ℚ) (start : Point)
    (candidates : List Point) (weights : List ℚ) (maxDistance : ℚ) (maxTiles : ℕ) :
    (greedy_tile_selection hav start candidates weights maxDistance maxTiles).length
      ≤ maxTiles := by
  rw [greedy_tile_selection]
  exact greedy_go_length_le hav start maxTiles _ [] start maxDistance

open TileOptimizer in
theorem optimize_tile_coverage_core_shape (hav : Point → Point → ℚ)
    (tileCenter : Tile → Point) (unvisited toConsider : List Tile)
    (startPoint : Point) (targetDistance : ℚ) (maxTiles : ℕ) :
    optimize_tile_coverage_core hav tileCenter unvisited toConsider startPoint
        targetDistance maxTiles = [startPoint] ∨
    ∃ sel : List Point, sel.length ≤ maxTiles ∧
      optimize_tile_coverage_core hav tileCenter unvisited toConsider startPoint
        targetDistance maxTiles = optimize_path hav startPoint sel := by
  rw [optimize_tile_coverage_core]
  split
  · exact Or.inl rfl
  · dsimp only
    split
    · exact Or.inl rfl
    · exact Or.inr ⟨_, greedy_tile_selection_length_le _ _ _ _ _ _, rfl⟩

open TileOptimizer in
theorem optimize_tile_coverage_shape (hav : Point → Point → ℚ)
    (tileCenter : Tile → Point) (visited all : List Tile) (startPoint : Point)
    (targetDistance : ℚ) (maxTiles : ℕ) (preferUnvisited : Bool) :
    optimize_tile_coverage hav tileCenter visited all startPoint targetDistance
        maxTiles preferUnvisited = [startPoint] ∨
    ∃ sel : List Point, sel.length ≤ maxTiles ∧
      optimize_tile_coverage hav tileCenter visited all startPoint targetDistance
        maxTiles preferUnvisited = optimize_path hav startPoint sel := by
  rw [optimize_tile_coverage]
  exact optimize_tile_coverage_core_shape _ _ _ _ _ _ _

open TileOptimizer in
/-- Counterexample to C2 as stated: with non-empty visited and all tile sets,
one unvisited tile sitting at the start point, budget 10 and a requested cap
of 1 tile, the returned list is `[start, tile, start]` of length 3, exceeding
the cap. -/
theorem C2_counterexample :
    (optimize_tile_coverage taxiDist (fun t => ((t.1 : ℚ), (t.2 : ℚ))) [(5, 5)]
        [(5, 5), (0, 0)] (0, 0) 10 1 true).length = 3 ∧
    ¬ (optimize_tile_coverage taxiDist (fun t => ((t.1 : ℚ), (t.2 : ℚ))) [(5, 5)]
        [(5, 5), (0, 0)] (0, 0) 10 1 true).length ≤ 1 := by
  have h : (optimize_tile_coverage taxiDist (fun t => ((t.1 : ℚ), (t.2 : ℚ))) [(5, 5)]
      [(5, 5), (0, 0)] (0, 0) 10 1 true).length = 3 := by
    norm_num [optimize_tile_coverage, optimize_tile_coverage_core,
      greedy_tile_selection, greedy_go, mk_scores, pick_best, optimize_path, taxiDist,
      List.filter_cons, List.filter_nil, List.enum, List.enumFrom, List.range,
      List.range.loop, List.range', score_key, qlist_lt, List.filterMap_cons,
      List.filterMap_nil, abs_zero, List.mem_cons, List.mem_singleton,
      List.not_mem_nil, Prod.mk.injEq, Prod.ext_iff, Prod.fst_zero, Prod.snd_zero,
      decide_eq_true_eq]
  exact ⟨h, by omega⟩

open TileOptimizer in
/-- C2 amended: for every tile data, start, budget and requested cap `N`, the
list returned by `optimize_tile_coverage` has length between 1 and `N + 2`:
at most `N` selected tile waypoints, bracketed by the start point at both
ends (or the bare `[start]` fallback). -/
theorem C2_coverage_length_amended (hav : Point → Point → ℚ)
    (tileCenter : Tile → Point) (visited all : List Tile) (startPoint : Point)
    (targetDistance : ℚ) (maxTiles : ℕ) (preferUnvisited : Bool) :
    1 ≤ (optimize_tile_coverage hav tileCenter visited all startPoint
          targetDistance maxTiles preferUnvisited).length ∧
    (optimize_tile_coverage hav tileCenter visited all startPoint
        targetDistance maxTiles preferUnvisited).length ≤ maxTiles + 2 := by
  rcases optimize_tile_coverage_shape hav tileCenter visited all startPoint
      targetDistance maxTiles preferUnvisited with h | ⟨sel, hsel, h⟩
  · rw [h]; simp
  · rw [h, optimize_path_length]
    omega

open TileOptimizer in
theorem optimize_tile_coverage_core_empty (hav : Point → Point → ℚ)
    (tileCenter : Tile → Point) (unvisited : List Tile) (startPoint : Point)
    (targetDistance : ℚ) (maxTiles : ℕ) :
    optimize_tile_coverage_core hav tileCenter unvisited [] startPoint
      targetDistance maxTiles = [startPoint] := by
  rw [optimize_tile_coverage_core]
  simp

open TileOptimizer in
theorem optimize_tile_coverage_core_far (hav : Point → Point → ℚ)
    (tileCenter : Tile → Point) (unvisited toConsider : List Tile)
    (startPoint : Point) (targetDistance : ℚ) (maxTiles : ℕ)
    (hfar : ∀ t ∈ toConsider, targetDistance / 2 < hav startPoint (tileCenter t)) :
    optimize_tile_coverage_core hav tileCenter unvisited toConsider startPoint
      targetDistance maxTiles = [startPoint] := by
  rw [optimize_tile_coverage_core]
  split
  · rfl
  · dsimp only
    split
    · rfl
    next h2 =>
      exfalso
      apply h2
      rw [List.isEmpty_eq_true, List.filter_eq_nil_iff]
      intro i hi
      rw [List.mem_range] at hi
      simp only [decide_eq_true_eq]
      intro hle
      have hiT : i < toConsider.length := by simpa using hi
      have hval : ((toConsider.map tileCenter).map (hav startPoint)).getD i 0
          = hav startPoint (tileCenter toConsider[i]) := by
        rw [List.getD_eq_getElem?_getD,
          List.getElem?_eq_getElem (by simpa using hi)]
        simp
      rw [hval] at hle
      exact absurd hle (not_le.mpr (hfar _ (List.getElem_mem hiT)))

open TileOptimizer in
/-- C7: the coverage selection never fails and always returns a non-empty
list; when the candidate pool is empty, or no candidate lies within half the
budget of the start, it returns exactly `[start]`. -/
theorem C7_coverage_fallbacks (hav : Point → Point → ℚ)
    (tileCenter : Tile → Point) (visited all : List Tile) (startPoint : Point)
    (targetDistance : ℚ) (maxTiles : ℕ) (preferUnvisited : Bool) :
    optimize_tile_coverage hav tileCenter visited all startPoint targetDistance
        maxTiles preferUnvisited ≠ [] ∧
    ((if preferUnvisited then all.filter (fun t => t ∉ visited) else all) = [] →
      optimize_tile_coverage hav tileCenter visited all startPoint targetDistance
        maxTiles preferUnvisited = [startPoint]) ∧
    ((∀ t ∈ (if preferUnvisited then all.filter (fun t => t ∉ visited) else all),
        targetDistance / 2 < hav startPoint (tileCenter t)) →
      optimize_tile_coverage hav tileCenter visited all startPoint targetDistance
        maxTiles preferUnvisited = [startPoint]) := by
  refine ⟨?_, ?_, ?_⟩
  · rcases optimize_tile_coverage_shape hav tileCenter visited all startPoint
        targetDistance maxTiles preferUnvisited with h | ⟨sel, _, h⟩
    · rw [h]; simp
    · rw [h]
      apply List.ne_nil_of_length_pos
      rw [optimize_path_length]
      omega
  · intro h
    rw [optimize_tile_coverage]
    rw [show (if preferUnvisited = true then all.filter (fun t => t ∉ visited) else all)
        = [] from h]
    exact optimize_tile_coverage_core_empty _ _ _ _ _ _
  · intro h
    rw [optimize_tile_coverage]
    exact optimize_tile_coverage_core_far _ _ _ _ _ _ _ h

open TileOptimizer in
/-- Witness for C7: a fully visited pool yields `[start]`, and a pool whose
single tile lies beyond half the budget also yields `[start]`. -/
theorem C7_witness :
    optimize_tile_coverage taxiDist (fun t => ((t.1 : ℚ), (t.2 : ℚ)))
      [((0 : ℤ), (0 : ℤ))] [((0 : ℤ), (0 : ℤ))] (0, 0) 10 3 true = [(0, 0)] ∧
    optimize_tile_coverage taxiDist (fun t => ((t.1 : ℚ), (t.2 : ℚ)))
      [] [((3 : ℤ), (3 : ℤ))] (0, 0) 2 3 true = [(0, 0)] :=
  ⟨(C7_coverage_fallbacks taxiDist _ _ _ _ _ _ _).2.1 (by decide),
   (C7_coverage_fallbacks taxiDist _ _ _ _ _ _ _).2.2 (by
      intro t ht
      have : t = ((3 : ℤ), (3 : ℤ)) := by
        simpa using ht
      subst this
      norm_num [taxiDist])⟩

/-! ### C3: greedy selection budget invariant -/

open MapyWaypointReducer in
theorem path_length_nil (hav : Point → Point → ℚ) : path_length hav [] = 0 := rfl

open MapyWaypointReducer in
theorem path_length_single (hav : Point → Point → ℚ) (a : Point) :
    path_length hav [a] = 0 := rfl

open MapyWaypointReducer in
theorem path_length_cons_cons (hav : Point → Point → ℚ) (a b : Point)
    (t : List Point) :
    path_length hav (a :: b :: t) = hav a b + path_length hav (b :: t) := by
  simp [path_length, consecutive_dists]

theorem foldl_pick_mem {α} (step : α → α → α)
    (hstep : ∀ b x, step b x = b ∨ step b x = x) :
    ∀ (rest : List α) (s : α), rest.foldl step s ∈ s :: rest := by
  intro rest
  induction rest with
  | nil => intro s; simp
  | cons y ys ih =>
      intro s
      have h := ih (step s y)
      rw [List.foldl_cons]
      rw [List.mem_cons] at h
      rcases hstep s y with h1 | h1 <;> rw [h1] at h ⊢ <;>
        rcases h with h | h <;> simp [h]

open TileOptimizer in
theorem pick_best_mem {l : List Score} {x : Score} (h : pick_best l = some x) :
    x ∈ l := by
  match l with
  | [] => simp [pick_best] at h
  | s :: rest =>
      simp only [pick_best, Option.some.injEq] at h
      rw [← h]
      exact foldl_pick_mem _
        (fun b x => by by_cases hbx : qlist_lt (score_key b) (score_key x) = true
                       · rw [if_pos hbx]; exact Or.inr rfl
                       · rw [if_neg hbx]; exact Or.inl rfl) rest s

open TileOptimizer in
theorem mem_mk_scores {hav : Point → Point → ℚ} {start pos : Point} {rem : ℚ}
    {used : List ℕ} {cands : List (Point × ℚ × ℕ)} {x : Score}
    (h : x ∈ mk_scores hav start pos rem used cands) :
    x.2.2.1 = hav pos x.2.1 ∧ hav pos x.2.1 + hav x.2.1 start ≤ rem := by
  rw [mk_scores, List.mem_filterMap] at h
  obtain ⟨c, hc, hx⟩ := h
  by_cases h1 : c.2.2 ∉ used
  · rw [if_pos h1] at hx
    dsimp only at hx
    by_cases h2 : hav pos c.1 + hav c.1 start ≤ rem
    · rw [if_pos h2] at hx
      simp only [Option.some.injEq] at hx
      rw [← hx]
      exact ⟨rfl, h2⟩
    · rw [if_neg h2] at hx
      exact absurd hx (by simp)
  · rw [if_neg h1] at hx
    exact absurd hx (by simp)

open TileOptimizer in
theorem greedy_go_isEmpty (hav : Point → Point → ℚ) (start : Point) (n : ℕ)
    (cands : List (Point × ℚ × ℕ)) (used : List ℕ) (pos : Point) (rem : ℚ)
    (hc : cands.isEmpty = true) :
    greedy_go hav start (n + 1) cands used pos rem = [] := by
  rw [greedy_go, if_pos hc]

open TileOptimizer in
theorem greedy_go_none (hav : Point → Point → ℚ) (start : Point) (n : ℕ)
    (cands : List (Point × ℚ × ℕ)) (used : List ℕ) (pos : Point) (rem : ℚ)
    (hc : ¬ cands.isEmpty = true)
    (hp : pick_best (mk_scores hav start pos rem used cands) = none) :
    greedy_go hav start (n + 1) cands used pos rem = [] := by
  rw [greedy_go, if_neg hc, hp]

open TileOptimizer in
theorem greedy_go_some (hav : Point → Point → ℚ) (start : Point) (n : ℕ)
    (cands : List (Point × ℚ × ℕ)) (used : List ℕ) (pos : Point) (rem : ℚ)
    (s : ℚ) (coord : Point) (dist : ℚ) (idx : ℕ)
    (hc : ¬ cands.isEmpty = true)
    (hp : pick_best (mk_scores hav start pos rem used cands)
        = some (s, coord, dist, idx)) :
    greedy_go hav start (n + 1) cands used pos rem
      = coord :: greedy_go hav start n (cands.filter fun c => c.2.2 ≠ idx)
          (idx :: used) coord (rem - dist) := by
  rw [greedy_go, if_neg hc, hp]

open TileOptimizer MapyWaypointReducer in
theorem greedy_go_take_budget (hav : Point → Point → ℚ) (start : Point) :
    ∀ (left : ℕ) (cands : List (Point × ℚ × ℕ)) (used : List ℕ) (pos : Point)
      (rem : ℚ) (k : ℕ) (q : Point),
      ((greedy_go hav start left cands used pos rem).take k).getLast? = some q →
      path_length hav (pos :: (greedy_go hav start left cands used pos rem).take k)
        + hav q start ≤ rem := by
  intro left
  induction left with
  | zero =>
      intro cands used pos rem k q hq
      simp [greedy_go] at hq
  | succ n ih =>
      intro cands used pos rem k q hq
      by_cases hc : cands.isEmpty = true
      · rw [greedy_go_isEmpty hav start n cands used pos rem hc] at hq
        simp at hq
      · cases hp : pick_best (mk_scores hav start pos rem used cands) with
        | none =>
            rw [greedy_go_none hav start n cands used pos rem hc hp] at hq
            simp at hq
        | some best =>
            obtain ⟨s, coord, dist, idx⟩ := best
            have hmem := mem_mk_scores (pick_best_mem hp)
            have hdist : dist = hav pos coord := hmem.1
            have hbound : hav pos coord + hav coord start ≤ rem := hmem.2
            rw [greedy_go_some hav start n cands used pos rem s coord dist idx hc hp]
              at hq ⊢
            cases k with
            | zero => simp at hq
            | succ k =>
                rw [List.take_succ_cons] at hq ⊢
                by_cases htk : (greedy_go hav start n
                    (cands.filter fun c => c.2.2 ≠ idx) (idx :: used) coord
                    (rem - dist)).take k = []
                · rw [htk] at hq ⊢
                  simp only [List.getLast?_cons, List.getLast?_nil] at hq
                  have hqc : q = coord := by simpa using hq.symm
                  subst hqc
                  rw [path_length_cons_cons, path_length_single]
                  linarith
                · have hlast : ((coord :: (greedy_go hav start n
                      (cands.filter fun c => c.2.2 ≠ idx) (idx :: used) coord
                      (rem - dist)).take k)).getLast?
                      = ((greedy_go hav start n
                      (cands.filter fun c => c.2.2 ≠ idx) (idx :: used) coord
                      (rem - dist)).take k).getLast? := by
                    cases h : (greedy_go hav start n
                        (cands.filter fun c => c.2.2 ≠ idx) (idx :: used) coord
                        (rem - dist)).take k with
                    | nil => exact absurd h htk
                    | cons a t => simp
                  rw [hlast] at hq
                  have := ih (cands.filter fun c => c.2.2 ≠ idx) (idx :: used)
                    coord (rem - dist) k q hq
                  rw [path_length_cons_cons]
                  rw [hdist] at this ⊢
                  linarith

open TileOptimizer MapyWaypointReducer in
/-- C3: after every greedy pick, the distance travelled from the start
through the picks so far plus the straight-line return distance from the last
pick never exceeds the budget: every nonempty prefix of the selection
satisfies the replayable bookkeeping invariant. -/
theorem C3_greedy_budget_invariant (hav : Point → Point → ℚ) (start : Point)
    (candidates : List Point) (weights : List ℚ) (maxDistance : ℚ)
    (maxTiles : ℕ) (k : ℕ) (q : Point)
    (hq : ((greedy_tile_selection hav start candidates weights maxDistance
        maxTiles).take k).getLast? = some q) :
    path_length hav (start :: (greedy_tile_selection hav start candidates weights
        maxDistance maxTiles).take k) + hav q start ≤ maxDistance := by
  rw [greedy_tile_selection] at hq ⊢
  exact greedy_go_take_budget hav start maxTiles _ [] start maxDistance k q hq

open TileOptimizer MapyWaypointReducer in
/-- Witness for C3 at a single-candidate greedy run within budget 10. -/
theorem C3_witness :
    path_length taxiDist ((0, 0) :: (greedy_tile_selection taxiDist (0, 0)
        [((0 : ℚ), (1 : ℚ))] [2] 10 5).take 1)
      + taxiDist ((0 : ℚ), (1 : ℚ)) (0, 0) ≤ 10 :=
  C3_greedy_budget_invariant taxiDist (0, 0) [((0 : ℚ), (1 : ℚ))] [2] 10 5 1
    ((0 : ℚ), (1 : ℚ))
    (by norm_num [greedy_tile_selection, greedy_go, mk_scores, pick_best, taxiDist,
      List.enum, List.enumFrom, score_key, qlist_lt, List.filterMap_cons,
      List.filterMap_nil, List.filter, abs_zero])

/-! ### C1 and C8: corridor strategy machinery -/

theorem pairwise_lt_of_sorted_nodup {l : List ℕ}
    (hs : l.Sorted (· ≤ ·)) (hn : l.Nodup) : l.Pairwise (· < ·) := by
  induction l with
  | nil => exact List.Pairwise.nil
  | cons a t ih =>
      rw [List.sorted_cons] at hs
      rw [List.nodup_cons] at hn
      refine List.Pairwise.cons (fun b hb => ?_) (ih hs.2 hn.2)
      exact lt_of_le_of_ne (hs.1 b hb) (fun he => hn.1 (he ▸ hb))

theorem head?_of_sorted_of_zero_mem {l : List ℕ}
    (hs : l.Sorted (· ≤ ·)) (h0 : 0 ∈ l) : l.head? = some 0 := by
  cases l with
  | nil => simp at h0
  | cons a t =>
      rw [List.mem_cons] at h0
      rw [List.sorted_cons] at hs
      rcases h0 with h0 | h0
      · rw [← h0]; rfl
      · have : a ≤ 0 := hs.1 0 h0
        have : a = 0 := Nat.le_zero.mp this
        rw [this]; rfl

theorem getLast?_of_sorted_of_max {l : List ℕ} {a : ℕ}
    (hs : l.Sorted (· ≤ ·)) (ha : a ∈ l) (hmax : ∀ x ∈ l, x ≤ a) :
    l.getLast? = some a := by
  induction l with
  | nil => simp at ha
  | cons x t ih =>
      cases t with
      | nil =>
          have : a = x := by simpa using ha
          simp [this]
      | cons y t' =>
          rw [List.getLast?_cons_cons]
          rw [List.sorted_cons] at hs
          apply ih hs.2
          · rcases List.mem_cons.mp ha with h | h
            · have h1 : y ≤ a := hmax y (by simp)
              have h2 : x ≤ y := hs.1 y (by simp)
              have : y = a := le_antisymm h1 (h ▸ h2)
              rw [← this]; simp
            · exact h
          · intro z hz
            exact hmax z (List.mem_cons_of_mem x hz)

open MapyWaypointReducer in
theorem everyNth_sublist {α} (k : ℕ) : ∀ (n : ℕ) (l : List α), l.length ≤ n →
    (everyNth k l).Sublist l := by
  intro n
  induction n with
  | zero =>
      intro l h
      have : l = [] := List.eq_nil_of_length_eq_zero (Nat.le_zero.mp h)
      subst this
      rw [everyNth]
  | succ n ih =>
      intro l h
      cases l with
      | nil => rw [everyNth]
      | cons a rest =>
          rw [everyNth]
          apply List.Sublist.cons₂
          have h1 : (rest.drop (k - 1)).length ≤ n := by
            rw [List.length_drop]
            simp only [List.length_cons] at h
            omega
          exact (ih _ h1).trans (List.drop_sublist _ _)

theorem zip_tail_telescope : ∀ (l : List ℕ) (a q : ℕ),
    l.head? = some a → l.getLast? = some q →
    (∀ p ∈ l.zip l.tail, p.2 - p.1 ≤ 1) → q ≤ a + (l.length - 1) := by
  intro l
  induction l with
  | nil => intro a q h; simp at h
  | cons x t ih =>
      intro a q hh hl hgap
      have hax : a = x := by simpa using hh.symm
      subst hax
      cases t with
      | nil =>
          have : q = a := by simpa using hl.symm
          simp [this]
      | cons y t' =>
          have hxy : y - a ≤ 1 := hgap (a, y) (by simp)
          have hl' : (y :: t').getLast? = some q := by
            rw [← List.getLast?_cons_cons (a := a)]; exact hl
          have hgap' : ∀ p ∈ (y :: t').zip (y :: t').tail, p.2 - p.1 ≤ 1 := by
            intro p hp
            apply hgap
            simp only [List.tail_cons, List.zip_cons_cons] at hp ⊢
            exact List.mem_cons_of_mem _ hp
          have := ih y q rfl hl' hgap'
          simp only [List.length_cons] at this ⊢
          omega

theorem not_mem_of_between : ∀ {l : List ℕ}, l.Pairwise (· < ·) →
    ∀ {a b x : ℕ}, (a, b) ∈ l.zip l.tail → a < x → x < b → x ∉ l := by
  intro l
  induction l with
  | nil => intro _ a b x hab; simp at hab
  | cons c t ih =>
      intro hpw a b x hab hax hxb hx
      cases t with
      | nil => simp at hab
      | cons d t' =>
          simp only [List.tail_cons, List.zip_cons_cons, List.mem_cons] at hab
          rw [List.pairwise_cons] at hpw
          rcases hab with hab | hab
          · have hac : a = c := (Prod.mk.injEq _ _ _ _ ▸ hab).1
            have hbd : b = d := (Prod.mk.injEq _ _ _ _ ▸ hab).2
            subst hac; subst hbd
            rcases List.mem_cons.mp hx with h | h
            · omega
            · rcases List.mem_cons.mp h with h' | h'
              · omega
              · have : b < x := (List.pairwise_cons.mp hpw.2).1 x h'
                omega
          · have hat : a ∈ d :: t' := (List.of_mem_zip hab).1
            rcases List.mem_cons.mp hx with h | h
            · have : c < a := hpw.1 a hat
              omega
            · exact ih hpw.2 hab hax hxb h

open MapyWaypointReducer in
theorem find_gap_aux_cases : ∀ (l : List ℕ) (g m : ℕ),
    find_gap_aux g m l = (g, m) ∨
    ∃ a b, (a, b) ∈ l.zip l.tail ∧ find_gap_aux g m l = (b - a, (a + b) / 2) := by
  intro l
  induction l with
  | nil => intro g m; left; rfl
  | cons a t ih =>
      intro g m
      cases t with
      | nil => left; rfl
      | cons b rest =>
          rw [find_gap_aux]
          by_cases hgb : g < b - a
          · rw [if_pos hgb]
            rcases ih (b - a) ((a + b) / 2) with h | ⟨a', b', hmem, heq⟩
            · right; exact ⟨a, b, by simp, h⟩
            · right
              refine ⟨a', b', ?_, heq⟩
              simp only [List.tail_cons, List.zip_cons_cons] at hmem ⊢
              exact List.mem_cons_of_mem _ hmem
          · rw [if_neg hgb]
            rcases ih g m with h | ⟨a', b', hmem, heq⟩
            · left; exact h
            · right
              refine ⟨a', b', ?_, heq⟩
              simp only [List.tail_cons, List.zip_cons_cons] at hmem ⊢
              exact List.mem_cons_of_mem _ hmem

open MapyWaypointReducer in
theorem find_gap_aux_ge : ∀ (l : List ℕ) (g m : ℕ),
    g ≤ (find_gap_aux g m l).1 ∧
    ∀ a b, (a, b) ∈ l.zip l.tail → b - a ≤ (find_gap_aux g m l).1 := by
  intro l
  induction l with
  | nil => intro g m; exact ⟨le_rfl, by simp⟩
  | cons a t ih =>
      intro g m
      cases t with
      | nil => exact ⟨le_rfl, by simp⟩
      | cons b rest =>
          rw [find_gap_aux]
          by_cases hgb : g < b - a
          · rw [if_pos hgb]
            obtain ⟨h1, h2⟩ := ih (b - a) ((a + b) / 2)
            refine ⟨le_trans (le_of_lt hgb) h1, ?_⟩
            intro a' b' hmem
            simp only [List.tail_cons, List.zip_cons_cons, List.mem_cons] at hmem
            rcases hmem with hmem | hmem
            · have ha : a' = a := (Prod.mk.injEq _ _ _ _ ▸ hmem).1
              have hbb : b' = b := (Prod.mk.injEq _ _ _ _ ▸ hmem).2
              subst ha; subst hbb
              exact h1
            · exact h2 a' b' hmem
          · rw [if_neg hgb]
            obtain ⟨h1, h2⟩ := ih g m
            refine ⟨h1, ?_⟩
            intro a' b' hmem
            simp only [List.tail_cons, List.zip_cons_cons, List.mem_cons] at hmem
            rcases hmem with hmem | hmem
            · have ha : a' = a := (Prod.mk.injEq _ _ _ _ ▸ hmem).1
              have hbb : b' = b := (Prod.mk.injEq _ _ _ _ ▸ hmem).2
              subst ha; subst hbb
              omega
            · exact h2 a' b' hmem

open MapyWaypointReducer in
theorem find_gap_progress {N : ℕ} {l : List ℕ}
    (hpw : l.Pairwise (· < ·)) (hh : l.head? = some 0)
    (hl : l.getLast? = some (N - 1)) (hb : ∀ x ∈ l, x ≤ N - 1)
    (h16 : 16 ≤ N) (hlen : l.length < N) :
    1 < (find_gap l).1 ∧ (find_gap l).2 ∉ l ∧ (find_gap l).2 ≤ N - 1 := by
  have hex : ∃ p ∈ l.zip l.tail, 2 ≤ p.2 - p.1 := by
    by_contra hno
    push_neg at hno
    have hgap : ∀ p ∈ l.zip l.tail, p.2 - p.1 ≤ 1 := fun p hp => by
      have := hno p hp; omega
    have htel := zip_tail_telescope l 0 (N - 1) hh hl hgap
    have hlpos : 1 ≤ l.length := by
      cases l with
      | nil => simp at hh
      | cons x t => simp
    omega
  obtain ⟨⟨a0, b0⟩, hp0, hge2⟩ := hex
  have hmax := (find_gap_aux_ge l 0 0).2 a0 b0 hp0
  have hg2 : 2 ≤ (find_gap_aux 0 0 l).1 := le_trans hge2 hmax
  rcases find_gap_aux_cases l 0 0 with h | ⟨a, b, hmem, heq⟩
  · rw [h] at hg2; simp at hg2
  · have hg : (find_gap l).1 = b - a := by rw [find_gap, heq]
    have hm : (find_gap l).2 = (a + b) / 2 := by rw [find_gap, heq]
    have hab2 : a + 2 ≤ b := by
      rw [heq] at hg2
      simp only at hg2
      omega
    have hbmem : b ∈ l := List.mem_of_mem_tail (List.of_mem_zip hmem).2
    refine ⟨by rw [hg]; omega, ?_, ?_⟩
    · rw [hm]
      exact not_mem_of_between hpw hmem (by omega) (by omega)
    · rw [hm]
      have := hb b hbmem
      omega

open MapyWaypointReducer in
theorem fill_gaps_step_inv {N : ℕ} {l : List ℕ} (h16 : 16 ≤ N)
    (hpw : l.Pairwise (· < ·)) (hh : l.head? = some 0)
    (hl : l.getLast? = some (N - 1)) (hb : ∀ x ∈ l, x ≤ N - 1) :
    (fill_gaps_step l).Pairwise (· < ·) ∧
    (fill_gaps_step l).head? = some 0 ∧
    (fill_gaps_step l).getLast? = some (N - 1) ∧
    (∀ x ∈ fill_gaps_step l, x ≤ N - 1) ∧
    (fill_gaps_step l).length ≤ l.length + 1 := by
  rw [fill_gaps_step]
  by_cases hcond : 1 < (find_gap l).1 ∧ (find_gap l).2 ∉ l
  · rw [if_pos hcond]
    obtain ⟨hg1, hnm⟩ := hcond
    have hmb : (find_gap l).2 ≤ N - 1 := by
      rcases find_gap_aux_cases l 0 0 with h | ⟨a, b, hmem, heq⟩
      · rw [show find_gap l = find_gap_aux 0 0 l from rfl, h] at hg1
        simp at hg1
      · have hg : (find_gap l).1 = b - a := by rw [find_gap, heq]
        have hm : (find_gap l).2 = (a + b) / 2 := by rw [find_gap, heq]
        have hbmem : b ∈ l := List.mem_of_mem_tail (List.of_mem_zip hmem).2
        have hble := hb b hbmem
        rw [hg] at hg1
        rw [hm]
        omega
    have hperm : ((l ++ [(find_gap l).2]).insertionSort (· ≤ ·)).Perm
        (l ++ [(find_gap l).2]) := List.perm_insertionSort _ _
    have hsorted : ((l ++ [(find_gap l).2]).insertionSort (· ≤ ·)).Sorted (· ≤ ·) :=
      List.sorted_insertionSort _ _
    have hnl : l.Nodup := hpw.imp (fun hlt => Nat.ne_of_lt hlt)
    have hnodup : ((l ++ [(find_gap l).2]).insertionSort (· ≤ ·)).Nodup := by
      refine hperm.nodup_iff.mpr (List.nodup_append.mpr ⟨hnl, by simp, ?_⟩)
      intro a ha ham
      simp only [List.mem_singleton] at ham
      exact hnm (ham ▸ ha)
    have h0l : 0 ∈ l := by
      cases l with
      | nil => simp at hh
      | cons x t =>
          have : x = 0 := by simpa using hh
          simp [this]
    have hNl : N - 1 ∈ l := List.mem_of_getLast?_eq_some hl
    refine ⟨pairwise_lt_of_sorted_nodup hsorted hnodup, ?_, ?_, ?_, ?_⟩
    · exact head?_of_sorted_of_zero_mem hsorted
        (hperm.mem_iff.mpr (List.mem_append_left _ h0l))
    · refine getLast?_of_sorted_of_max hsorted
        (hperm.mem_iff.mpr (List.mem_append_left _ hNl)) ?_
      intro x hx
      rcases List.mem_append.mp (hperm.mem_iff.mp hx) with hx | hx
      · exact hb x hx
      · simp only [List.mem_singleton] at hx
        exact hx ▸ hmb
    · intro x hx
      rcases List.mem_append.mp (hperm.mem_iff.mp hx) with hx | hx
      · exact hb x hx
      · simp only [List.mem_singleton] at hx
        exact hx ▸ hmb
    · rw [hperm.length_eq, List.length_append]
      simp
  · rw [if_neg hcond]
    exact ⟨hpw, hh, hl, hb, Nat.le_succ _⟩

open MapyWaypointReducer in
theorem fill_gaps_step_grows {N : ℕ} {l : List ℕ} (h16 : 16 ≤ N)
    (hpw : l.Pairwise (· < ·)) (hh : l.head? = some 0)
    (hl : l.getLast? = some (N - 1)) (hb : ∀ x ∈ l, x ≤ N - 1)
    (hlen : l.length < N) :
    (fill_gaps_step l).length = l.length + 1 := by
  obtain ⟨hg1, hnm, _⟩ := find_gap_progress hpw hh hl hb h16 hlen
  rw [fill_gaps_step]
  rw [if_pos ⟨hg1, hnm⟩]
  rw [(List.perm_insertionSort _ _).length_eq, List.length_append]
  simp

open MapyWaypointReducer in
theorem fill_gaps_guard_false {N fuel : ℕ} {l : List ℕ}
    (h : ¬(l.length < MAPY_MAX_WAYPOINTS ∧ l.length < N)) :
    fill_gaps N fuel l = l := by
  cases fuel with
  | zero => rw [fill_gaps]
  | succ n => rw [fill_gaps, if_neg h]

open MapyWaypointReducer in
theorem fill_gaps_stops {N : ℕ} (h16 : 16 ≤ N) :
    ∀ (fuel : ℕ) (l : List ℕ), l.Pairwise (· < ·) → l.head? = some 0 →
      l.getLast? = some (N - 1) → (∀ x ∈ l, x ≤ N - 1) →
      min MAPY_MAX_WAYPOINTS N ≤ fuel + l.length →
      ¬((fill_gaps N fuel l).length < MAPY_MAX_WAYPOINTS ∧
        (fill_gaps N fuel l).length < N) := by
  intro fuel
  induction fuel with
  | zero =>
      intro l h1 h2 h3 h4 hfuel
      rw [fill_gaps]
      intro hc
      simp [MAPY_MAX_WAYPOINTS] at hc hfuel
      omega
  | succ n ih =>
      intro l h1 h2 h3 h4 hfuel
      rw [fill_gaps]
      by_cases hg : l.length < MAPY_MAX_WAYPOINTS ∧ l.length < N
      · rw [if_pos hg]
        obtain ⟨s1, s2, s3, s4, _⟩ := fill_gaps_step_inv h16 h1 h2 h3 h4
        have hgrow := fill_gaps_step_grows h16 h1 h2 h3 h4 hg.2
        apply ih _ s1 s2 s3 s4
        omega
      · rw [if_neg hg]
        exact hg

open MapyWaypointReducer in
theorem fill_gaps_fuel_stable {N : ℕ} (h16 : 16 ≤ N) :
    ∀ (fuel : ℕ) (l : List ℕ), l.Pairwise (· < ·) → l.head? = some 0 →
      l.getLast? = some (N - 1) → (∀ x ∈ l, x ≤ N - 1) →
      min MAPY_MAX_WAYPOINTS N ≤ fuel + l.length →
      ∀ extra, fill_gaps N (fuel + extra) l = fill_gaps N fuel l := by
  intro fuel
  induction fuel with
  | zero =>
      intro l h1 h2 h3 h4 hfuel extra
      have hng : ¬(l.length < MAPY_MAX_WAYPOINTS ∧ l.length < N) := by
        intro hc
        simp [MAPY_MAX_WAYPOINTS] at hc hfuel
        omega
      rw [Nat.zero_add, fill_gaps_guard_false hng, fill_gaps_guard_false hng]
  | succ n ih =>
      intro l h1 h2 h3 h4 hfuel extra
      by_cases hg : l.length < MAPY_MAX_WAYPOINTS ∧ l.length < N
      · have heq1 : fill_gaps N (n + 1 + extra) l
            = fill_gaps N (n + extra) (fill_gaps_step l) := by
          rw [show n + 1 + extra = (n + extra) + 1 from by omega, fill_gaps,
            if_pos hg]
        obtain ⟨s1, s2, s3, s4, _⟩ := fill_gaps_step_inv h16 h1 h2 h3 h4
        have hgrow := fill_gaps_step_grows h16 h1 h2 h3 h4 hg.2
        rw [heq1, ih _ s1 s2 s3 s4 (by omega) extra]
        rw [fill_gaps, if_pos hg]
      · rw [fill_gaps_guard_false hg, fill_gaps_guard_false hg]

theorem cons_append_last_inv {N : ℕ} (S : List ℕ) (h16 : 16 ≤ N)
    (hS : S.Pairwise (· < ·)) (hSmem : ∀ x ∈ S, 1 ≤ x ∧ x < N - 1) :
    (0 :: (S ++ [N - 1])).Pairwise (· < ·) ∧
    (0 :: (S ++ [N - 1])).head? = some 0 ∧
    (0 :: (S ++ [N - 1])).getLast? = some (N - 1) ∧
    (∀ x ∈ 0 :: (S ++ [N - 1]), x ≤ N - 1) := by
  refine ⟨?_, rfl, getLast?_cons_append_singleton _ _ _, ?_⟩
  · rw [List.pairwise_cons]
    constructor
    · intro y hy
      rcases List.mem_append.mp hy with hy | hy
      · have := (hSmem y hy).1; omega
      · simp only [List.mem_singleton] at hy; omega
    · rw [List.pairwise_append]
      refine ⟨hS, by simp, ?_⟩
      intro a ha b hb
      simp only [List.mem_singleton] at hb
      subst hb
      exact (hSmem a ha).2
  · intro x hx
    rcases List.mem_cons.mp hx with hx | hx
    · omega
    · rcases List.mem_append.mp hx with hx | hx
      · have := (hSmem x hx).2; omega
      · simp only [List.mem_singleton] at hx; omega

open MapyWaypointReducer in
theorem corridor_filter_facts (bear : Point → Point → ℚ) (wps : List Point) :
    (((List.range' 1 (wps.length - 2)).filter fun i =>
        30 < bearing_change bear (wps.getD (i - 1) (0, 0)) (wps.getD i (0, 0))
          (wps.getD (i + 1) (0, 0))).Pairwise (· < ·)) ∧
    ∀ x ∈ (List.range' 1 (wps.length - 2)).filter fun i =>
        30 < bearing_change bear (wps.getD (i - 1) (0, 0)) (wps.getD i (0, 0))
          (wps.getD (i + 1) (0, 0)),
      1 ≤ x ∧ x < 1 + (wps.length - 2) := by
  constructor
  · exact (List.pairwise_lt_range' 1 (wps.length - 2)).filter _
  · intro x hx
    exact List.mem_range'_1.mp (List.mem_of_mem_filter hx)

open MapyWaypointReducer in
theorem corridor_important_inv (bear : Point → Point → ℚ) (wps : List Point)
    (h : 15 < wps.length) :
    (corridor_important bear wps).Pairwise (· < ·) ∧
    (corridor_important bear wps).head? = some 0 ∧
    (corridor_important bear wps).getLast? = some (wps.length - 1) ∧
    (∀ x ∈ corridor_important bear wps, x ≤ wps.length - 1) := by
  obtain ⟨hpw, hmem⟩ := corridor_filter_facts bear wps
  rw [corridor_important]
  exact cons_append_last_inv _ (by omega) hpw
    (fun x hx => by have := hmem x hx; omega)

open MapyWaypointReducer in
theorem corridor_important_mid (bear : Point → Point → ℚ) (wps : List Point) :
    ((corridor_important bear wps).drop 1).dropLast
      = (List.range' 1 (wps.length - 2)).filter fun i =>
          30 < bearing_change bear (wps.getD (i - 1) (0, 0)) (wps.getD i (0, 0))
            (wps.getD (i + 1) (0, 0)) := by
  rw [corridor_important]
  simp only [List.drop_succ_cons, List.drop_zero, List.dropLast_concat]

open MapyWaypointReducer in
theorem corridor_subsampled_inv (bear : Point → Point → ℚ) (wps : List Point)
    (h : 15 < wps.length) :
    (corridor_subsampled bear wps).Pairwise (· < ·) ∧
    (corridor_subsampled bear wps).head? = some 0 ∧
    (corridor_subsampled bear wps).getLast? = some (wps.length - 1) ∧
    (∀ x ∈ corridor_subsampled bear wps, x ≤ wps.length - 1) ∧
    (corridor_subsampled bear wps).length ≤ 15 := by
  obtain ⟨hpw, hh, hl, hb⟩ := corridor_important_inv bear wps h
  rw [corridor_subsampled]
  by_cases hlen : MAPY_MAX_WAYPOINTS < (corridor_important bear wps).length
  · rw [if_pos hlen]
    dsimp only
    obtain ⟨hFpw, hFmem⟩ := corridor_filter_facts bear wps
    have hmid := corridor_important_mid bear wps
    set mid := ((corridor_important bear wps).drop 1).dropLast with hmiddef
    have hmidpw : mid.Pairwise (· < ·) := by rw [hmid]; exact hFpw
    have hmidmem : ∀ x ∈ mid, 1 ≤ x ∧ x < wps.length - 1 := by
      intro x hx
      rw [hmid] at hx
      have := hFmem x hx
      omega
    have hsub : ((everyNth (max 1 (mid.length / (MAPY_MAX_WAYPOINTS - 2))) mid).take
        (MAPY_MAX_WAYPOINTS - 2)).Sublist mid :=
      (List.take_sublist _ _).trans (everyNth_sublist _ mid.length mid le_rfl)
    have hSpw := List.Pairwise.sublist hsub hmidpw
    have hSmem : ∀ x ∈ (everyNth (max 1 (mid.length / (MAPY_MAX_WAYPOINTS - 2))) mid).take
        (MAPY_MAX_WAYPOINTS - 2), 1 ≤ x ∧ x < wps.length - 1 :=
      fun x hx => hmidmem x (hsub.subset hx)
    obtain ⟨c1, c2, c3, c4⟩ := cons_append_last_inv _ (by omega : 16 ≤ wps.length)
      hSpw hSmem
    refine ⟨c1, c2, c3, c4, ?_⟩
    simp only [List.length_cons, List.length_append, List.length_singleton,
      List.length_nil]
    have := List.length_take_le (MAPY_MAX_WAYPOINTS - 2)
      (everyNth (max 1 (mid.length / (MAPY_MAX_WAYPOINTS - 2))) mid)
    simp only [MAPY_MAX_WAYPOINTS] at this ⊢
    omega
  · rw [if_neg hlen]
    refine ⟨hpw, hh, hl, hb, ?_⟩
    simpa [MAPY_MAX_WAYPOINTS] using not_lt.mp hlen

open MapyWaypointReducer in
/-- C8: the corridor gap-filling loop terminates for every finite input: with
fuel equal to the number of available indices it already reaches a state
where the loop guard (`len < 15 and len < available`) is false, and granting
any additional fuel does not change the result. -/
theorem C8_corridor_fill_terminates (bear : Point → Point → ℚ)
    (wps : List Point) (h : 15 < wps.length) (extra : ℕ) :
    fill_gaps wps.length (wps.length + extra) (corridor_subsampled bear wps)
      = fill_gaps wps.length wps.length (corridor_subsampled bear wps) ∧
    ¬((fill_gaps wps.length wps.length (corridor_subsampled bear wps)).length
        < 15 ∧
      (fill_gaps wps.length wps.length (corridor_subsampled bear wps)).length
        < wps.length) := by
  obtain ⟨e1, e2, e3, e4, e5⟩ := corridor_subsampled_inv bear wps h
  have h16 : 16 ≤ wps.length := by omega
  have hlen1 : 1 ≤ (corridor_subsampled bear wps).length := by
    cases hc : corridor_subsampled bear wps with
    | nil => rw [hc] at e2; simp at e2
    | cons a t => simp
  constructor
  · exact fill_gaps_fuel_stable h16 wps.length _ e1 e2 e3 e4
      (by simp only [MAPY_MAX_WAYPOINTS]; omega) extra
  · have hstop := fill_gaps_stops h16 wps.length _ e1 e2 e3 e4
      (by simp only [MAPY_MAX_WAYPOINTS]; omega)
    simpa [MAPY_MAX_WAYPOINTS] using hstop

open MapyWaypointReducer in
/-- Witness for C8 at a 16-point straight-line list with 5 extra fuel. -/
theorem C8_witness :
    fill_gaps wps16.length (wps16.length + 5) (corridor_subsampled taxiDist wps16)
      = fill_gaps wps16.length wps16.length (corridor_subsampled taxiDist wps16) ∧
    ¬((fill_gaps wps16.length wps16.length
        (corridor_subsampled taxiDist wps16)).length < 15 ∧
      (fill_gaps wps16.length wps16.length
        (corridor_subsampled taxiDist wps16)).length < wps16.length) :=
  C8_corridor_fill_terminates taxiDist wps16 (by decide) 5
